import Mathlib

/-!
Verification development for the release-lifecycle model of djangoproject.com
(`releases/models.py`): version parsing and formatting, the `Release` entity,
the published/supported/unsupported query engine, the save-time EOL cascade,
and the security-advisory aggregator (`SecurityRelease` / `SecurityIssue`).

Conventions of the embedding:
- Dates are modelled as `Int` day numbers (only their ordering matters);
  `Option Int` models nullable date columns (`date`, `eol_date`).
- The one-character `status` column (`CharField(max_length=1)`) is modelled as
  a `Char`; SQL string ordering on one-character strings coincides with
  code-point ordering, hence `Char.toNat` is used in sort keys.
- A database table is a `List Release`; SQL `filter`/`exclude`/`order_by` are
  list filtering and an insertion sort.
- Fallible Python code (IndexError, KeyError, ValueError from tuple
  unpacking, uncaught exceptions) is modelled with `Option`/`Except`.
- Python `str(n)` on a natural number is modelled by `natStr` (the standard
  base-10 renderer, written with explicit fuel so it evaluates in the kernel).
-/

/-! ### Decimal rendering of naturals (model of Python `str(int)`) -/

/-- The character for a decimal digit, as in CPython's repr of `int`.
Values `≥ 9` all render as `'9'`; the callers only pass values `< 10`. -/
def digitChr (n : Nat) : Char :=
  match n with
  | 0 => '0' | 1 => '1' | 2 => '2' | 3 => '3' | 4 => '4'
  | 5 => '5' | 6 => '6' | 7 => '7' | 8 => '8' | _ => '9'

/-- Fuel-indexed digit list of `n`, most significant first; the wrapper
passes `n + 1` as fuel, which always suffices since `n / 10 < n`. -/
def repDigitsF : Nat → Nat → List Char
  | 0, _ => []
  | fuel + 1, n =>
    if n < 10 then [digitChr n]
    else repDigitsF fuel (n / 10) ++ [digitChr (n % 10)]

/-- Digit list of `n`, most significant first (`n + 1` is always enough fuel). -/
def repDigits (n : Nat) : List Char := repDigitsF (n + 1) n

/-- Decimal string of a natural number: the model of Python `str(n)`. -/
def natStr (n : Nat) : String := (repDigits n).asString

/-- Numeric value of a digit character. -/
def digitVal (c : Char) : Nat := c.toNat - 48

/-- Value of a list of decimal digit characters, most significant first:
the model of Python `int(s)` on a digit run. -/
def valOfDigits (l : List Char) : Nat := l.foldl (fun a c => 10 * a + digitVal c) 0

/-! ### The loose version tokenizer -/

/-- One component of a loosely parsed version string: a numeric run or an
alphabetic run. -/
inductive VComp where
  | num (n : Nat)
  | str (s : String)
deriving DecidableEq, Repr

/-- Fuel-indexed tokenizer; the fuel bounds the number of components and is
instantiated with the length of the character list. -/
def tokenizeF : Nat → List Char → List VComp
  | 0, _ => []
  | _, [] => []
  | fuel + 1, c :: cs =>
    if c.isDigit then
      VComp.num (valOfDigits (List.takeWhile Char.isDigit (c :: cs)))
        :: tokenizeF fuel (List.dropWhile Char.isDigit (c :: cs))
    else if c.isAlpha then
      VComp.str (List.takeWhile Char.isAlpha (c :: cs)).asString
        :: tokenizeF fuel (List.dropWhile Char.isAlpha (c :: cs))
    else
      tokenizeF fuel cs

/-- Modelled from the spec: `get_loose_version_tuple` lives in
`releases/utils.py`, which is not among the provided sources. Per §4.1 of the
spec it tokenizes a version string into a loose sequence of numeric and
alphabetic runs (numeric runs converted to integers), with `.` acting as a
separator that produces no component. The string is represented as its
character list. -/
def get_loose_version_tuple (cs : List Char) : List VComp :=
  tokenizeF cs.length cs

/-! ### Version tuple normalization (`Release.version_tuple`) -/

/-- The four normalized pre-release kinds, in the order of the source tuple
`("alpha", "beta", "rc", "final")`. -/
def KINDS : List String := ["alpha", "beta", "rc", "final"]

/-- The `{"a": "alpha", "b": "beta", "c": "rc"}` mapping of
`Release.version_tuple`; `none` models the `KeyError` on any other key. -/
def expandKind (s : String) : Option String :=
  if s = "a" then some "alpha"
  else if s = "b" then some "beta"
  else if s = "c" then some "rc"
  else none

/-- Resolution of the kind slot of `version_tuple`: a kind already in `KINDS`
is kept, otherwise it is looked up in the abbreviation mapping; a numeric slot
is a `KeyError` (`none`). -/
def resolveKind : VComp → Option String
  | VComp.str s => if s ∈ KINDS then some s else expandKind s
  | VComp.num _ => none

/-- The `isinstance(version[2], int)` test. -/
def VComp.isInt : VComp → Bool
  | VComp.num _ => true
  | VComp.str _ => false

/-- Strip `-` and `_` separators: the model of
`version.replace("-", "").replace("_", "")` (single-character patterns, so
replacement by the empty string is exactly a character filter). -/
def stripSeps (cs : List Char) : List Char :=
  cs.filter (fun c => !(c == '-') && !(c == '_'))

/-- The list-normalization steps of `Release.version_tuple` on the loose
component list: pad a 2-component version with micro `0`, insert micro `0`
when the third component is not numeric, default the kind to `"final"`,
normalize kind abbreviations, and default the iteration to `0`.
`none` models the `IndexError`/`KeyError` escapes of the Python code. -/
def normalizeComps (l : List VComp) : Option (List VComp) := do
  let l := if l.length = 2 then l ++ [VComp.num 0] else l
  let c2 ← l[2]?
  let l := if c2.isInt then l else l.take 2 ++ VComp.num 0 :: l.drop 2
  let l := if l.length = 3 then l ++ [VComp.str "final"] else l
  let c3 ← l[3]?
  let k ← resolveKind c3
  let l := l.take 3 ++ VComp.str k :: l.drop 4
  let l := if l.length = 4 then l ++ [VComp.num 0] else l
  some l

/-- The full component pipeline of `Release.version_tuple`. -/
def version_comps (s : String) : Option (List VComp) :=
  normalizeComps (get_loose_version_tuple (stripSeps s.data))

/-- A normalized 5-tuple in the format of `django.VERSION`:
`(major, minor, micro, kind, iteration)`. -/
structure VersionTuple where
  major : Nat
  minor : Nat
  micro : Nat
  kind : String
  iteration : Nat
deriving DecidableEq, Repr

/-- `Release.version_tuple` read as the 5-tuple that `Release.save` unpacks
into the model's integer and status fields: the normalized component list must
consist of exactly three numbers, a kind string, and an iteration number
(otherwise `save`'s tuple unpacking or the integer fields reject it, modelled
as `none`). -/
def version_tuple (s : String) : Option VersionTuple :=
  match version_comps s with
  | some [VComp.num ma, VComp.num mi, VComp.num mc, VComp.str k, VComp.num it] =>
    some { major := ma, minor := mi, micro := mc, kind := k, iteration := it }
  | _ => none

/-! ### Version formatting (`get_version`) -/

/-- Modelled from the spec: `django.utils.version.get_main_version` renders
`X.Y` when the micro component is zero and `X.Y.Z` otherwise (§4.1: micro is
omitted when zero). -/
def get_main_version (t : VersionTuple) : String :=
  if t.micro = 0 then natStr t.major ++ "." ++ natStr t.minor
  else natStr t.major ++ "." ++ natStr t.minor ++ "." ++ natStr t.micro

/-- The `{"alpha": "a", "beta": "b", "rc": "rc"}` mapping of `get_version`;
`none` models the `KeyError`. -/
def statusAbbrev (s : String) : Option String :=
  if s = "alpha" then some "a"
  else if s = "beta" then some "b"
  else if s = "rc" then some "rc"
  else none

/-- `get_version` from `releases/models.py`: PEP-compliant short form of a
version 5-tuple. The `kind ∈ KINDS` guard models the assertion performed by
`django.utils.version.get_complete_version` on the way in; a non-final kind is
rendered as its compact suffix followed by the iteration. -/
def get_version (t : VersionTuple) : Option String :=
  if t.kind ∈ KINDS then
    if t.kind = "final" then some (get_main_version t)
    else
      (statusAbbrev t.kind).map
        (fun ab => get_main_version t ++ ab ++ natStr t.iteration)
  else none

/-! ### The Release entity -/

/-- One row of the `Release` table. The artifact file fields (`tarball`,
`wheel`, `checksum`) play no role in any claim and are omitted; all other
columns are carried. `version` is the primary key. -/
structure Release where
  version : String
  is_active : Bool
  date : Option Int
  eol_date : Option Int
  major : Nat
  minor : Nat
  micro : Nat
  status : Char
  iteration : Nat
  is_lts : Bool
deriving DecidableEq, Repr

/-- `RELEASE_STATUS_REVERSE`: normalized kind to one-character status code;
`none` models the `KeyError` on any other key. -/
def RELEASE_STATUS_REVERSE (s : String) : Option Char :=
  if s = "alpha" then some 'a'
  else if s = "beta" then some 'b'
  else if s = "rc" then some 'c'
  else if s = "final" then some 'f'
  else none

/-- `Release.__hash__` hashes the tuple `(major, minor, micro)`: the hash is
determined by (and, Python's tuple hash being injective on this use, modelled
as) that triple. -/
def pyHashKey (r : Release) : Nat × Nat × Nat := (r.major, r.minor, r.micro)

/-- Equality of `Release` instances: the class defines no `__eq__` of its own,
so Django's `Model.__eq__` applies, which compares primary keys — here the
`version` string. -/
def pyEq (a b : Release) : Bool := a.version == b.version

/-- Collapse test of a Python `set` of `Release` instances: two members are
identified when they land in the same hash bucket (`__hash__`, the
`(major, minor, micro)` triple) and compare equal (`__eq__`, the `version`
primary key). -/
def setCollapse (a b : Release) : Bool :=
  decide (pyHashKey a = pyHashKey b) && pyEq a b

/-- The `(major, minor, micro)` triple: the comparison key of
`Release.__lt__` and the sort key of `ReleaseManager.unsupported`. -/
def tripleKey (r : Release) : Nat × Nat × Nat := (r.major, r.minor, r.micro)

/-- `Release.is_pre_release`: status is not final. -/
def is_pre_release (r : Release) : Bool := r.status != 'f'

/-- `Release.feature_version`: the `major.minor` series string. -/
def feature_version (r : Release) : String :=
  natStr r.major ++ "." ++ natStr r.minor

/-! ### Generic list machinery: insertion sort, dedup, upsert -/

/-- Insert `x` into `l`, placing it before the first element `y` with
`before x y`; keeps equal-key elements stable. -/
def ordInsert (before : α → α → Bool) (x : α) : List α → List α
  | [] => [x]
  | y :: ys => if before x y then x :: y :: ys else y :: ordInsert before x ys

/-- Stable insertion sort: `before x y` means `x` must be strictly earlier
than `y` in the result. -/
def insSort (before : α → α → Bool) : List α → List α
  | [] => []
  | x :: xs => ordInsert before x (insSort before xs)

/-- Iterated construction of a Python `set`: an element is dropped when the
already-seen elements contain a collapse partner for it. The result keeps the
first occurrence of every equivalence class, in iteration order. -/
def dedupAcc (collapse : α → α → Bool) : List α → List α → List α
  | _, [] => []
  | seen, x :: xs =>
    if seen.any (fun y => collapse y x) then dedupAcc collapse seen xs
    else x :: dedupAcc collapse (x :: seen) xs

/-- Write a row into the table keyed by `version`: replace the first row with
the same primary key, or append. This is the durable effect of
`super().save()`. -/
def upsert (r : Release) : List Release → List Release
  | [] => [r]
  | x :: xs => if x.version = r.version then r :: xs else x :: upsert r xs

/-- Strict lexicographic comparison of `(major, minor, micro)` keys. -/
def lex3 : Nat × Nat × Nat → Nat × Nat × Nat → Bool
  | (a1, b1, c1), (a2, b2, c2) =>
    if a1 < a2 then true else if a2 < a1 then false
    else if b1 < b2 then true else if b2 < b1 then false
    else decide (c1 < c2)

/-- Strict lexicographic comparison of `(major, minor, micro, status)` keys. -/
def lex4 : Nat × Nat × Nat × Nat → Nat × Nat × Nat × Nat → Bool
  | (a1, b1, c1, d1), (a2, b2, c2, d2) =>
    if a1 < a2 then true else if a2 < a1 then false
    else if b1 < b2 then true else if b2 < b1 then false
    else if c1 < c2 then true else if c2 < c1 then false
    else decide (d1 < d2)

/-! ### The release query engine (`ReleaseManager`) -/

/-- Sort key of `published`: `order_by("-major", "-minor", "-micro",
"-status")`; the one-character status column is compared by code point. -/
def pubKey (r : Release) : Nat × Nat × Nat × Nat :=
  (r.major, r.minor, r.micro, r.status.toNat)

/-- Descending comparison for `published`: `a` goes strictly before `b` when
`a`'s key is strictly greater. -/
def pubBefore (a b : Release) : Bool := lex4 (pubKey b) (pubKey a)

/-- Row filter of `published(at)`: `major ≥ 1`, `date` set and `≤ at`, active,
and not (`eol_date` set and `≤ at`). -/
def pubFilter (at_ : Int) (r : Release) : Bool :=
  decide (1 ≤ r.major)
    && (match r.date with | some d => decide (d ≤ at_) | none => false)
    && r.is_active
    && !(match r.eol_date with | some e => decide (e ≤ at_) | none => false)

/-- `ReleaseManager.published(at)`. -/
def published (db : List Release) (at_ : Int) : List Release :=
  insSort pubBefore (db.filter (pubFilter at_))

/-- `ReleaseManager.supported(at)`: published releases of final status. -/
def supported (db : List Release) (at_ : Int) : List Release :=
  (published db at_).filter (fun r => r.status == 'f')

/-- Candidate filter of `unsupported(at)`: `major ≥ 1`, `eol_date` set and
`≤ at`, final status. -/
def candFilter (at_ : Int) (r : Release) : Bool :=
  decide (1 ≤ r.major)
    && (match r.eol_date with | some e => decide (e ≤ at_) | none => false)
    && (r.status == 'f')

/-- Descending comparison for the `unsupported` candidate scan:
`order_by("-major", "-minor", "-micro")`. -/
def candBefore (a b : Release) : Bool := lex3 (tripleKey b) (tripleKey a)

/-- The iterative scan of `unsupported`: keep a candidate only when its
`(major, minor)` series is not yet excluded, and then exclude the series. -/
def unsupportedGo : List Release → List (Nat × Nat) → List Release
  | [], _ => []
  | r :: rest, ex =>
    if (r.major, r.minor) ∈ ex then unsupportedGo rest ex
    else r :: unsupportedGo rest ((r.major, r.minor) :: ex)

/-- `ReleaseManager.unsupported(at)`: final end-of-lifed candidates in
descending `(major, minor, micro)` order, minus every series that still has a
supported member, keeping only the first (latest-micro) hit per series. -/
def unsupported (db : List Release) (at_ : Int) : List Release :=
  unsupportedGo (insSort candBefore (db.filter (candFilter at_)))
    ((supported db at_).map (fun r => (r.major, r.minor)))

/-! ### `Release.save` and the EOL cascade -/

/-- The bulk `update(eol_date=self.date)` of the EOL cascade, applied to one
row: rows matching `(major, minor, micro - 1, final)` get the new date. -/
def eolUpdate (ma mi mc : Nat) (d : Option Int) (x : Release) : Release :=
  if x.major = ma ∧ x.minor = mi ∧ x.micro = mc - 1 ∧ x.status = 'f' then
    { x with eol_date := d }
  else x

/-- The in-memory assignments at the top of `Release.save`: the decomposition
fields are overwritten from the parsed version tuple and the status code. -/
def savedRow (r : Release) (t : VersionTuple) (st : Char) : Release :=
  { r with
    major := t.major, minor := t.minor, micro := t.micro,
    status := st, iteration := t.iteration }

/-- `Release.save`: recompute `(major, minor, micro, status, iteration)` from
the version string (failure of parsing or of the 5-way tuple unpacking are
`none`), write the row, and, for an active final micro release with
`micro > 0`, set the `eol_date` of every final row of the same series with
micro one less to this release's date. -/
def save (r : Release) (db : List Release) : Option (List Release) := do
  let t ← version_tuple r.version
  let st ← RELEASE_STATUS_REVERSE t.kind
  let r' : Release := savedRow r t st
  let db' := upsert r' db
  some
    (if st = 'f' ∧ 0 < r'.micro ∧ r'.is_active = true then
      db'.map (eolUpdate r'.major r'.minor r'.micro r'.date)
    else db')

/-- `Release.objects.create` repeated over a list: fold `save` over an empty
table, as the test fixtures do. -/
def createAll (rs : List Release) : Option (List Release) :=
  rs.foldlM (fun db r => save r db) []

/-! ### Security issues and the advisory aggregator -/

/-- The constant `CVE_TYPE_OTHER`. -/
def CVE_TYPE_OTHER : String := "Other or Unknown"

/-- The constant `SEVERITY_LEVELS_DOCS`. -/
def SEVERITY_LEVELS_DOCS : String :=
  "https://docs.djangoproject.com/en/dev/internals/security/#security-issue-severity-levels"

/-- A clock-and-calendar timestamp, the model of the `when` field of a
checklist (`DateTimeField`). -/
structure DateTime where
  year : Nat
  month : Nat
  day : Nat
  hour : Nat
  minute : Nat
  second : Nat
deriving DecidableEq, Repr

/-- Zero-padded two-digit field, as formatted by `strftime`. -/
def pad2 (n : Nat) : String :=
  if n < 10 then "0" ++ natStr n else natStr n

/-- Zero-padded four-digit year, as formatted by `strftime("%Y")`. -/
def pad4 (n : Nat) : String :=
  if n < 10 then "000" ++ natStr n
  else if n < 100 then "00" ++ natStr n
  else if n < 1000 then "0" ++ natStr n
  else natStr n

/-- `strftime("%m/%d/%Y")`: the `datePublic` format. -/
def strftime_mdY (d : DateTime) : String :=
  pad2 d.month ++ "/" ++ pad2 d.day ++ "/" ++ pad4 d.year

/-- `datetime.isoformat()` (microseconds zero, no timezone): the
`timeline[0].time` format. -/
def isoformat (d : DateTime) : String :=
  pad4 d.year ++ "-" ++ pad2 d.month ++ "-" ++ pad2 d.day ++ "T"
    ++ pad2 d.hour ++ ":" ++ pad2 d.minute ++ ":" ++ pad2 d.second

/-- Lowercased English month abbreviation, as in
`when.strftime("%Y/%b/%d").lower()`. -/
def monthAbbrevLower (m : Nat) : String :=
  match m with
  | 1 => "jan" | 2 => "feb" | 3 => "mar" | 4 => "apr" | 5 => "may" | 6 => "jun"
  | 7 => "jul" | 8 => "aug" | 9 => "sep" | 10 => "oct" | 11 => "nov" | 12 => "dec"
  | _ => ""

/-- `ReleaseChecklist.blogpost_link` for a given slug. -/
def blogpost_link (when : DateTime) (slug : String) : String :=
  "https://www.djangoproject.com/weblog/" ++ pad4 when.year ++ "/"
    ++ monthAbbrevLower when.month ++ "/" ++ pad2 when.day ++ "/" ++ slug ++ "/"

/-- The checklist data of a `SecurityRelease` that `cve_data` reads through
`self.release`: its scheduled timestamp (`when`). Its slug is the fixed
string `"security-releases"`. -/
structure SecurityReleaseRec where
  when : DateTime
deriving DecidableEq, Repr

/-- One `SecurityIssue` row with its many-to-many `releases`. The foreign key
to the fixing `SecurityRelease` checklist is passed separately where needed. -/
structure SecurityIssueRec where
  cve_year_number : String
  cve_type : String
  other_type : String
  attack_type : String
  impact : String
  severity : String
  summary : String
  description : String
  blogdescription : String
  reporter : String
  commit_hash_main : String
  releases : List Release
deriving DecidableEq, Repr

/-- `SecurityRelease.affected_releases`: the Python set union of every
release of every attached issue (collapsing by `setCollapse`, i.e. equal hash
bucket and equal primary key), sorted descending by the `__lt__` triple. -/
def affected_releases (issues : List SecurityIssueRec) : List Release :=
  insSort candBefore
    (dedupAcc setCollapse [] (issues.flatMap (fun i => i.releases)))

/-- `SecurityRelease.latest_release`: the first non-pre-release element of
`affected_releases`; `none` models the `IndexError` of `[...][0]` when every
affected release is a pre-release (or there are none). -/
def latest_release (issues : List SecurityIssueRec) : Option Release :=
  ((affected_releases issues).filter (fun r => !(is_pre_release r))).head?

/-- `SecurityIssue.clean_fields`: the free-text other type must be set
exactly when the vulnerability type is the "Other or Unknown" sentinel. A
consistent record is returned unchanged; `Except.error` models the raised
`ValidationError`. -/
def clean_fields (i : SecurityIssueRec) : Except String SecurityIssueRec :=
  if i.cve_type = CVE_TYPE_OTHER ∧ i.other_type = "" then
    Except.error
      ("\"Other type\" needs to be set when \"Vulnerability type\" is "
        ++ CVE_TYPE_OTHER)
  else if i.cve_type ≠ CVE_TYPE_OTHER ∧ i.other_type ≠ "" then
    Except.error ("\"Other type\" should be blank for \"" ++ i.cve_type ++ "\".")
  else Except.ok i

/-! ### The CVE advisory document -/

/-- A JSON-like document value: string leaves, arrays and ordered objects. -/
inductive J where
  | s (v : String)
  | arr (l : List J)
  | obj (l : List (String × J))

/-- Top-level keys of an object document, in order. -/
def jTopKeys : J → Option (List String)
  | J.obj kvs => some (kvs.map (fun kv => kv.1))
  | _ => none

/-- Look up a top-level key of an object document. -/
def jGet (j : J) (key : String) : Option J :=
  match j with
  | J.obj kvs => kvs.lookup key
  | _ => none

/-- The backquote character, spelled by code point. -/
def backquote : Char := Char.ofNat 96

/-- `self.summary.replace("`", "")` of `cve_data`. -/
def stripBackquotes (s : String) : String :=
  (s.data.filter (fun c => !(c == backquote))).asString

/-- Tail rendering of the three-or-more case of `enumerate_items`. -/
def enumerateTail : List String → String
  | [] => ""
  | [y] => "and " ++ y
  | y :: rest => y ++ ", " ++ enumerateTail rest

/-- Modelled from the spec: the `enumerate_items` template filter (from
`releases/templatetags/generator_extras.py`, not among the provided sources)
joins a list of items for display: one item alone, two as "x and y", three or
more Oxford-comma-joined with "and" before the last. -/
def enumerate_items : List String → String
  | [] => ""
  | [x] => x
  | [x, y] => x ++ " and " ++ y
  | x :: rest => x ++ ", " ++ enumerateTail rest

/-- Descending order on the `version` primary-key string:
`order_by("-version")`. -/
def versionDescBefore (a b : Release) : Bool := decide (b.version < a.version)

/-- The final releases affected by an issue in descending `version` order:
`self.releases.filter(status="f").order_by("-version")`. -/
def finalsByVersionDesc (rs : List Release) : List Release :=
  insSort versionDescBefore (rs.filter (fun r => r.status == 'f'))

/-- The pair of version-range entries `cve_data` emits for one fixed final
release: the series from `x.y.0` below the fixed version is affected, the
fixed version below the next series is unaffected. -/
def versionRangePair (r : Release) : List J :=
  [J.obj [("status", J.s "affected"),
          ("version", J.s (feature_version r ++ ".0")),
          ("lessThan", J.s r.version),
          ("versionType", J.s "semver")],
   J.obj [("status", J.s "unaffected"),
          ("version", J.s r.version),
          ("lessThan", J.s (feature_version r ++ ".*")),
          ("versionType", J.s "semver")]]

/-- `SecurityIssue.cve_data`: the advisory record for one issue, reading the
scheduled timestamp and announcement link through the attached
`SecurityRelease` checklist. -/
def cve_data (issue : SecurityIssueRec) (rel : SecurityReleaseRec) : J :=
  let finals := finalsByVersionDesc issue.releases
  let affected_unaffected_versions := finals.flatMap versionRangePair
  let enumerated_versions := enumerate_items (finals.map (fun r => r.version))
  J.obj
    [("title", J.s (stripBackquotes issue.summary)),
     ("metrics", J.arr
       [J.obj [("other", J.obj
         [("content", J.obj
           [("value", J.s issue.severity),
            ("namespace", J.s SEVERITY_LEVELS_DOCS)]),
          ("type", J.s "Django severity rating")])]]),
     ("descriptions", J.arr
       [J.obj [("lang", J.s "en"), ("value", J.s issue.description)]]),
     ("affected", J.arr
       [J.obj
         [("packageName", J.s "django"),
          ("collectionURL", J.s "https://github.com/django/django/"),
          ("defaultStatus", J.s "affected"),
          ("versions", J.arr affected_unaffected_versions)]]),
     ("references", J.arr
       [J.obj
         [("url", J.s (blogpost_link rel.when "security-releases")),
          ("name", J.s ("Django security releases issued: " ++ enumerated_versions)),
          ("tags", J.arr [J.s "vendor-advisory"])]]),
     ("credits", J.arr
       [J.obj
         [("lang", J.s "en"),
          ("type", J.s "reporter"),
          ("value", J.s ("Django would like to thank " ++ issue.reporter
            ++ " for reporting this issue."))]]),
     ("timeline", J.arr
       [J.obj
         [("lang", J.s "en"),
          ("time", J.s (isoformat rel.when)),
          ("value", J.s "Made public.")]]),
     ("datePublic", J.s (strftime_mdY rel.when))]

/-! ### Concrete fixtures -/

/-- A freshly constructed, not yet saved `Release` row: the decomposition fields
hold placeholder values until `save` computes them, as in the Django model
where they are non-editable and only set in `save`. -/
def mkRelease (v : String) (act : Bool) (d e : Option Int) (lts : Bool) : Release :=
  { version := v, is_active := act, date := d, eol_date := e,
    major := 0, minor := 0, micro := 0, status := 'f', iteration := 0,
    is_lts := lts }

/-- The ten releases of the `TestReleaseManager` fixture, in creation order,
with dates as day offsets from today (= `0`). -/
def scenarioOps : List Release :=
  [mkRelease "1.4" true (some (-450)) (some 50) true,
   mkRelease "1.5" true (some (-350)) (some (-150)) false,
   mkRelease "1.6" true (some (-250)) (some (-50)) false,
   mkRelease "1.7" true (some (-150)) (some 50) false,
   mkRelease "1.8a1" true (some (-80)) (some (-65)) false,
   mkRelease "1.8b1" true (some (-65)) (some (-50)) true,
   mkRelease "1.8" true (some (-50)) (some 0) true,
   mkRelease "1.8.1" true (some 0) none true,
   mkRelease "1.9" true none none false,
   mkRelease "1.10" false (some 0) none false]

/-- A final release 5.2 as stored (decomposition `(5, 2, 0)`, status `'f'`). -/
def r52 : Release :=
  { version := "5.2", is_active := true, date := some 0, eol_date := none,
    major := 5, minor := 2, micro := 0, status := 'f', iteration := 0,
    is_lts := true }

/-- A release candidate 5.2rc1 as stored (decomposition `(5, 2, 0)`, status
`'c'`): the same `(major, minor, micro)` triple as `r52` but a different
primary key. -/
def r52rc1 : Release :=
  { version := "5.2rc1", is_active := true, date := some (-14), eol_date := none,
    major := 5, minor := 2, micro := 0, status := 'c', iteration := 1,
    is_lts := true }

/-- A security issue affecting both the 5.2 release candidate and the 5.2
final build. -/
def issueC1 : SecurityIssueRec :=
  { cve_year_number := "CVE-2025-00001", cve_type := CVE_TYPE_OTHER,
    other_type := "DoS", attack_type := "Remote", impact := "Denial of Service",
    severity := "moderate", summary := "issue", description := "desc",
    blogdescription := "", reporter := "reporter", commit_hash_main := "",
    releases := [r52rc1, r52] }

/-- A security issue affecting only the 5.2 release candidate (no final
release). -/
def issuePre : SecurityIssueRec :=
  { issueC1 with cve_year_number := "CVE-2025-00002", releases := [r52rc1] }

/-- The checklist timestamp fixture: December 4, 2024 at 10:00. -/
def relC8 : SecurityReleaseRec :=
  { when := { year := 2024, month := 12, day := 4, hour := 10, minute := 0,
              second := 0 } }

/-- A stored final release whose end of life has passed (the 1.5 row of the
fixture, as `save` would store it). -/
def rEol : Release :=
  { version := "1.5", is_active := true, date := some (-350),
    eol_date := some (-150), major := 1, minor := 5, micro := 0, status := 'f',
    iteration := 0, is_lts := false }

/-- An unsaved 1.5.1 bugfix release about to be saved into a table holding
`rEol`. -/
def rC3 : Release := mkRelease "1.5.1" true (some 0) none false

/-- The stored form of `rC3` after `save` computes its decomposition. -/
def rC3saved : Release :=
  { rC3 with major := 1, minor := 5, micro := 1, status := 'f', iteration := 0 }

/-- The table after saving `rC3` over `[rEol]`: the prior micro of the series
has been end-of-lifed to the new release's date. -/
def dbC3 : List Release := [{ rEol with eol_date := some 0 }, rC3saved]

/-! ## Lemmas: insertion sort -/

theorem mem_ordInsert {before : α → α → Bool} {x a : α} {l : List α} :
    a ∈ ordInsert before x l ↔ a = x ∨ a ∈ l := by
  induction l with
  | nil => simp [ordInsert]
  | cons y ys ih =>
    rw [ordInsert]
    split
    · simp
    · simp only [List.mem_cons, ih]
      tauto

theorem perm_ordInsert (before : α → α → Bool) (x : α) (l : List α) :
    List.Perm (ordInsert before x l) (x :: l) := by
  induction l with
  | nil => simp [ordInsert]
  | cons y ys ih =>
    rw [ordInsert]
    split
    · exact List.Perm.refl _
    · exact List.Perm.trans (List.Perm.cons y ih) (List.Perm.swap x y ys)

theorem perm_insSort (before : α → α → Bool) (l : List α) :
    List.Perm (insSort before l) l := by
  induction l with
  | nil => exact List.Perm.refl _
  | cons x xs ih =>
    exact List.Perm.trans (perm_ordInsert before x (insSort before xs))
      (List.Perm.cons x ih)

theorem mem_insSort {before : α → α → Bool} {a : α} {l : List α} :
    a ∈ insSort before l ↔ a ∈ l :=
  (perm_insSort before l).mem_iff

theorem pairwise_ordInsert {before : α → α → Bool}
    (H1 : ∀ a b, before a b = true → before b a = false)
    (H2 : ∀ x y z, before x y = true → before z y = false → before z x = false)
    {x : α} {l : List α} (h : l.Pairwise (fun a b => before b a = false)) :
    (ordInsert before x l).Pairwise (fun a b => before b a = false) := by
  induction l with
  | nil => simp [ordInsert]
  | cons y ys ih =>
    rw [List.pairwise_cons] at h
    obtain ⟨hy, hys⟩ := h
    rw [ordInsert]
    split
    case isTrue hxy =>
      refine List.Pairwise.cons ?_ (List.Pairwise.cons hy hys)
      intro z hz
      rcases List.mem_cons.mp hz with rfl | hz
      · exact H1 _ _ hxy
      · exact H2 x y z hxy (hy z hz)
    case isFalse hxy =>
      refine List.Pairwise.cons ?_ (ih hys)
      intro z hz
      rcases mem_ordInsert.mp hz with rfl | hz
      · exact Bool.eq_false_iff.mpr (fun hc => hxy hc)
      · exact hy z hz

theorem pairwise_insSort {before : α → α → Bool}
    (H1 : ∀ a b, before a b = true → before b a = false)
    (H2 : ∀ x y z, before x y = true → before z y = false → before z x = false)
    (l : List α) :
    (insSort before l).Pairwise (fun a b => before b a = false) := by
  induction l with
  | nil => simp [insSort]
  | cons x xs ih => exact pairwise_ordInsert H1 H2 ih

/-! ## Lemmas: the lexicographic key comparisons -/

theorem lex3_iff (u v : Nat × Nat × Nat) :
    lex3 u v = true ↔
      u.1 < v.1 ∨ (u.1 = v.1 ∧ (u.2.1 < v.2.1 ∨ (u.2.1 = v.2.1 ∧ u.2.2 < v.2.2))) := by
  obtain ⟨a1, b1, c1⟩ := u
  obtain ⟨a2, b2, c2⟩ := v
  simp only [lex3]
  split_ifs <;> simp <;> omega

theorem lex3_false_iff (u v : Nat × Nat × Nat) :
    lex3 u v = false ↔
      ¬(u.1 < v.1 ∨ (u.1 = v.1 ∧ (u.2.1 < v.2.1 ∨ (u.2.1 = v.2.1 ∧ u.2.2 < v.2.2)))) := by
  rw [← lex3_iff]
  cases lex3 u v <;> simp

theorem lex4_iff (u v : Nat × Nat × Nat × Nat) :
    lex4 u v = true ↔
      u.1 < v.1 ∨ (u.1 = v.1 ∧ (u.2.1 < v.2.1 ∨ (u.2.1 = v.2.1 ∧
        (u.2.2.1 < v.2.2.1 ∨ (u.2.2.1 = v.2.2.1 ∧ u.2.2.2 < v.2.2.2))))) := by
  obtain ⟨a1, b1, c1, d1⟩ := u
  obtain ⟨a2, b2, c2, d2⟩ := v
  simp only [lex4]
  split_ifs <;> simp <;> omega

theorem lex4_false_iff (u v : Nat × Nat × Nat × Nat) :
    lex4 u v = false ↔
      ¬(u.1 < v.1 ∨ (u.1 = v.1 ∧ (u.2.1 < v.2.1 ∨ (u.2.1 = v.2.1 ∧
        (u.2.2.1 < v.2.2.1 ∨ (u.2.2.1 = v.2.2.1 ∧ u.2.2.2 < v.2.2.2)))))) := by
  rw [← lex4_iff]
  cases lex4 u v <;> simp

theorem lex3_asymm {u v : Nat × Nat × Nat} (h : lex3 u v = true) :
    lex3 v u = false := by
  rw [lex3_iff] at h
  rw [lex3_false_iff]
  omega

theorem lex3_negtrans {u v w : Nat × Nat × Nat} (h1 : lex3 u v = true)
    (h2 : lex3 u w = false) : lex3 v w = false := by
  rw [lex3_iff] at h1
  rw [lex3_false_iff] at h2 ⊢
  omega

theorem lex4_asymm {u v : Nat × Nat × Nat × Nat} (h : lex4 u v = true) :
    lex4 v u = false := by
  rw [lex4_iff] at h
  rw [lex4_false_iff]
  omega

theorem lex4_negtrans {u v w : Nat × Nat × Nat × Nat} (h1 : lex4 u v = true)
    (h2 : lex4 u w = false) : lex4 v w = false := by
  rw [lex4_iff] at h1
  rw [lex4_false_iff] at h2 ⊢
  omega

theorem pubBefore_H1 : ∀ a b : Release, pubBefore a b = true → pubBefore b a = false :=
  fun _ _ h => lex4_asymm h

theorem pubBefore_H2 : ∀ x y z : Release, pubBefore x y = true →
    pubBefore z y = false → pubBefore z x = false :=
  fun _ _ _ h1 h2 => lex4_negtrans h1 h2

theorem candBefore_H1 : ∀ a b : Release, candBefore a b = true → candBefore b a = false :=
  fun _ _ h => lex3_asymm h

theorem candBefore_H2 : ∀ x y z : Release, candBefore x y = true →
    candBefore z y = false → candBefore z x = false :=
  fun _ _ _ h1 h2 => lex3_negtrans h1 h2

/-! ## Lemmas: the row filters -/

theorem pubFilter_iff (at_ : Int) (r : Release) :
    pubFilter at_ r = true ↔
      1 ≤ r.major ∧ r.is_active = true ∧ (∃ d, r.date = some d ∧ d ≤ at_) ∧
        ¬ ∃ e, r.eol_date = some e ∧ e ≤ at_ := by
  unfold pubFilter
  cases hd : r.date <;> cases he : r.eol_date <;> simp <;> tauto

theorem candFilter_iff (at_ : Int) (r : Release) :
    candFilter at_ r = true ↔
      1 ≤ r.major ∧ (∃ e, r.eol_date = some e ∧ e ≤ at_) ∧ r.status = 'f' := by
  unfold candFilter
  cases he : r.eol_date <;> (simp; try tauto)

/-! ## Lemmas: the unsupported scan -/

theorem mem_unsupportedGo_mem {l : List Release} {ex : List (Nat × Nat)}
    {r : Release} (h : r ∈ unsupportedGo l ex) : r ∈ l := by
  induction l generalizing ex with
  | nil => simp [unsupportedGo] at h
  | cons x rest ih =>
    rw [unsupportedGo] at h
    split at h
    · exact List.mem_cons_of_mem x (ih h)
    · rcases List.mem_cons.mp h with rfl | h
      · exact List.mem_cons_self r rest
      · exact List.mem_cons_of_mem x (ih h)

theorem mem_unsupportedGo_not_ex {l : List Release} {ex : List (Nat × Nat)}
    {r : Release} (h : r ∈ unsupportedGo l ex) : (r.major, r.minor) ∉ ex := by
  induction l generalizing ex with
  | nil => simp [unsupportedGo] at h
  | cons x rest ih =>
    rw [unsupportedGo] at h
    split at h
    · exact ih h
    · rcases List.mem_cons.mp h with rfl | h
      · assumption
      · intro hmem
        exact ih h (List.mem_cons_of_mem _ hmem)

theorem unsupportedGo_sublist (l : List Release) (ex : List (Nat × Nat)) :
    List.Sublist (unsupportedGo l ex) l := by
  induction l generalizing ex with
  | nil => simp [unsupportedGo]
  | cons x rest ih =>
    rw [unsupportedGo]
    split
    · exact List.Sublist.cons x (ih ex)
    · exact List.Sublist.cons₂ x (ih _)

theorem mem_unsupportedGo_max {l : List Release} {ex : List (Nat × Nat)}
    {r c : Release} (hp : l.Pairwise (fun a b => candBefore b a = false))
    (hr : r ∈ unsupportedGo l ex) (hc : c ∈ l)
    (hma : c.major = r.major) (hmi : c.minor = r.minor) : c.micro ≤ r.micro := by
  induction l generalizing ex with
  | nil => simp [unsupportedGo] at hr
  | cons x rest ih =>
    rw [List.pairwise_cons] at hp
    obtain ⟨hx, hrest⟩ := hp
    rw [unsupportedGo] at hr
    split at hr
    case isTrue hxex =>
      rcases List.mem_cons.mp hc with rfl | hc
      · -- the head is in the excluded series, so `r` cannot share its series
        exfalso
        have hnot := mem_unsupportedGo_not_ex hr
        rw [hma, hmi] at hxex
        exact hnot hxex
      · exact ih hrest hr hc
    case isFalse hxex =>
      rcases List.mem_cons.mp hr with rfl | hr
      · rcases List.mem_cons.mp hc with rfl | hc
        · exact Nat.le_refl _
        · -- `c` comes later in the descending candidate order
          have := hx c hc
          unfold candBefore at this
          rw [lex3_false_iff] at this
          unfold tripleKey at this
          simp at this
          omega
      · rcases List.mem_cons.mp hc with rfl | hc
        · -- `c` is the head, kept-but-different from `r`: its series was added
          exfalso
          have hnot := mem_unsupportedGo_not_ex hr
          rw [hma, hmi] at hnot
          exact hnot (List.mem_cons_self _ _)
        · exact ih hrest hr hc

theorem pairwise_series_unsupportedGo (l : List Release) (ex : List (Nat × Nat)) :
    (unsupportedGo l ex).Pairwise
      (fun a b => (a.major, a.minor) ≠ (b.major, b.minor)) := by
  induction l generalizing ex with
  | nil => simp [unsupportedGo]
  | cons x rest ih =>
    rw [unsupportedGo]
    split
    · exact ih ex
    · refine List.Pairwise.cons ?_ (ih _)
      intro b hb hxb
      have := mem_unsupportedGo_not_ex hb
      rw [← hxb] at this
      exact this (List.mem_cons_self _ _)

/-! ## Claims -/

/-- C4: for every collection of releases and every date `at`, `published(at)`
contains exactly the releases with `major ≥ 1`, active, `date` set and
`≤ at`, and not (`eol_date` set and `≤ at`) — in particular never a release
with no date or a future date, and a release whose `eol_date` equals `at` is
excluded — and the result is sorted descending by
`(major, minor, micro, status)`. -/
theorem published_spec (db : List Release) (at_ : Int) (r : Release) :
    (r ∈ published db at_ ↔
      r ∈ db ∧ 1 ≤ r.major ∧ r.is_active = true ∧
        (∃ d, r.date = some d ∧ d ≤ at_) ∧
        ¬ ∃ e, r.eol_date = some e ∧ e ≤ at_)
    ∧ (published db at_).Pairwise
        (fun a b => lex4 (pubKey a) (pubKey b) = false) := by
  constructor
  · rw [published, mem_insSort, List.mem_filter, pubFilter_iff]
  · exact pairwise_insSort pubBefore_H1 pubBefore_H2 _

/-- Witness for C4 at a concrete one-row table and date `0`. -/
theorem published_spec_witness :
    (rEol ∈ published [rEol] 0 ↔
      rEol ∈ [rEol] ∧ 1 ≤ rEol.major ∧ rEol.is_active = true ∧
        (∃ d, rEol.date = some d ∧ d ≤ 0) ∧
        ¬ ∃ e, rEol.eol_date = some e ∧ e ≤ 0)
    ∧ (published [rEol] 0).Pairwise
        (fun a b => lex4 (pubKey a) (pubKey b) = false) :=
  published_spec [rEol] 0 rEol

/-- C5: for every collection of releases and date `at`, `unsupported(at)`
contains only final releases with `major ≥ 1` and an `eol_date ≤ at`, never a
`(major, minor)` series with a member in `supported(at)`, retains only the
latest micro per series (candidates being processed in descending
`(major, minor, micro)` order), and is an ordered (descending) list with at
most one entry per series. -/
theorem unsupported_spec (db : List Release) (at_ : Int) :
    (∀ r ∈ unsupported db at_,
      r ∈ db ∧ r.status = 'f' ∧ 1 ≤ r.major ∧
        (∃ e, r.eol_date = some e ∧ e ≤ at_) ∧
        (∀ s ∈ supported db at_, (r.major, r.minor) ≠ (s.major, s.minor)) ∧
        (∀ c ∈ db, candFilter at_ c = true → c.major = r.major →
          c.minor = r.minor → c.micro ≤ r.micro))
    ∧ (unsupported db at_).Pairwise
        (fun a b => (a.major, a.minor) ≠ (b.major, b.minor))
    ∧ (unsupported db at_).Pairwise
        (fun a b => lex3 (tripleKey a) (tripleKey b) = false) := by
  refine ⟨?_, pairwise_series_unsupportedGo _ _, ?_⟩
  · intro r hr
    have hmem := mem_unsupportedGo_mem hr
    rw [mem_insSort, List.mem_filter] at hmem
    obtain ⟨hdb, hcand⟩ := hmem
    rw [candFilter_iff] at hcand
    have hnot := mem_unsupportedGo_not_ex hr
    refine ⟨hdb, hcand.2.2, hcand.1, hcand.2.1, ?_, ?_⟩
    · intro s hs heq
      apply hnot
      rw [heq]
      exact List.mem_map_of_mem _ hs
    · intro c hc hcf hma hmi
      refine mem_unsupportedGo_max
        (pairwise_insSort candBefore_H1 candBefore_H2 _) hr ?_ hma hmi
      rw [mem_insSort, List.mem_filter]
      exact ⟨hc, hcf⟩
  · exact List.Pairwise.sublist (unsupportedGo_sublist _ _)
      (pairwise_insSort candBefore_H1 candBefore_H2 _)

/-- Witness for C5 at a concrete one-row table and date `0`: the sole
end-of-lifed final release is listed and satisfies every clause. -/
theorem unsupported_spec_witness :
    rEol ∈ [rEol] ∧ rEol.status = 'f' ∧ 1 ≤ rEol.major ∧
      (∃ e, rEol.eol_date = some e ∧ e ≤ 0) ∧
      (∀ s ∈ supported [rEol] 0, (rEol.major, rEol.minor) ≠ (s.major, s.minor)) ∧
      (∀ c ∈ [rEol], candFilter 0 c = true → c.major = rEol.major →
        c.minor = rEol.minor → c.micro ≤ rEol.micro) :=
  (unsupported_spec [rEol] 0).1 rEol (by decide)

/-- C6: the ten-release fixture (dates as offsets from today = 0) yields
`published() = [1.8.1, 1.7, 1.4]` and `unsupported() = [1.6, 1.5]`. -/
theorem manager_concrete_scenario :
    (createAll scenarioOps).map
        (fun db => ((published db 0).map (fun r => r.version),
                    (unsupported db 0).map (fun r => r.version)))
      = some (["1.8.1", "1.7", "1.4"], ["1.6", "1.5"]) := by
  rfl

/-- C9: `SecurityIssue.clean_fields` succeeds, returning the record
unchanged, exactly when the other-type text is consistent with the
vulnerability category, and raises a validation error exactly when the
category is the "Other or Unknown" sentinel with an empty other-type or a
non-sentinel category has a non-empty other-type. -/
theorem clean_fields_spec (i : SecurityIssueRec) :
    (clean_fields i = Except.ok i ↔
      ((i.cve_type = CVE_TYPE_OTHER → i.other_type ≠ "") ∧
       (i.cve_type ≠ CVE_TYPE_OTHER → i.other_type = "")))
    ∧ ((∃ e, clean_fields i = Except.error e) ↔
      ((i.cve_type = CVE_TYPE_OTHER ∧ i.other_type = "") ∨
       (i.cve_type ≠ CVE_TYPE_OTHER ∧ i.other_type ≠ ""))) := by
  unfold clean_fields
  split_ifs with h1 h2 <;> (simp_all; try tauto)

/-- Witness for C9 at the concrete fixture issue (a consistent record of the
sentinel category with a non-empty other type). -/
theorem clean_fields_spec_witness :
    (clean_fields issueC1 = Except.ok issueC1 ↔
      ((issueC1.cve_type = CVE_TYPE_OTHER → issueC1.other_type ≠ "") ∧
       (issueC1.cve_type ≠ CVE_TYPE_OTHER → issueC1.other_type = "")))
    ∧ ((∃ e, clean_fields issueC1 = Except.error e) ↔
      ((issueC1.cve_type = CVE_TYPE_OTHER ∧ issueC1.other_type = "") ∨
       (issueC1.cve_type ≠ CVE_TYPE_OTHER ∧ issueC1.other_type ≠ ""))) :=
  clean_fields_spec issueC1

/-! ## Lemmas: upsert, the cascade function, and status codes -/

theorem mem_upsert_self (r : Release) (db : List Release) : r ∈ upsert r db := by
  induction db with
  | nil => simp [upsert]
  | cons x xs ih =>
    rw [upsert]
    split
    · exact List.mem_cons_self _ _
    · exact List.mem_cons_of_mem x ih

theorem mem_upsert_of_ne {r x : Release} {db : List Release} (hx : x ∈ db)
    (hne : x.version ≠ r.version) : x ∈ upsert r db := by
  induction db with
  | nil => simp at hx
  | cons y ys ih =>
    rw [upsert]
    rcases List.mem_cons.mp hx with rfl | hx
    · split
      case isTrue hyr => exact absurd hyr hne
      case isFalse hyr => exact List.mem_cons_self _ _
    · split
      · exact List.mem_cons_of_mem _ hx
      · exact List.mem_cons_of_mem y (ih hx)

theorem upsert_version_unique {r y : Release} {db : List Release}
    (hnd : (db.map (fun x => x.version)).Nodup) (hy : y ∈ upsert r db)
    (hv : y.version = r.version) : y = r := by
  induction db with
  | nil => simpa [upsert] using hy
  | cons x xs ih =>
    rw [upsert] at hy
    rw [List.map_cons, List.nodup_cons] at hnd
    obtain ⟨hxs, hnd'⟩ := hnd
    split at hy
    case isTrue hxr =>
      rcases List.mem_cons.mp hy with rfl | hy
      · rfl
      · exfalso
        apply hxs
        rw [hxr, ← hv]
        exact List.mem_map_of_mem _ hy
    case isFalse hxr =>
      rcases List.mem_cons.mp hy with rfl | hy
      · exact absurd hv hxr
      · exact ih hnd' hy

theorem eolUpdate_fields (ma mi mc : Nat) (d : Option Int) (x : Release) :
    (eolUpdate ma mi mc d x).version = x.version ∧
    (eolUpdate ma mi mc d x).major = x.major ∧
    (eolUpdate ma mi mc d x).minor = x.minor ∧
    (eolUpdate ma mi mc d x).micro = x.micro ∧
    (eolUpdate ma mi mc d x).status = x.status ∧
    (eolUpdate ma mi mc d x).iteration = x.iteration := by
  unfold eolUpdate
  split <;> simp

theorem reverse_status_final {k : String} {st : Char}
    (h : RELEASE_STATUS_REVERSE k = some st) : st = 'f' ↔ k = "final" := by
  unfold RELEASE_STATUS_REVERSE at h
  split_ifs at h with h1 h2 h3 h4 <;>
    (injection h with h; subst h; simp_all; try decide)

/-- C3: for every release whose parsed status is final with positive micro
and which is active, `save` sets the `eol_date` of every other stored release
of the same `(major, minor)` series with micro one less and final status to
the saved release's date, leaving non-matching rows unchanged; and when the
saved release is inactive, not final, or has micro 0, every other row is left
untouched. -/
theorem release_save_eol_cascade (r : Release) (db db' : List Release)
    (t : VersionTuple) (h : save r db = some db')
    (ht : version_tuple r.version = some t) :
    ((t.kind = "final" ∧ 0 < t.micro ∧ r.is_active = true) →
      ∀ x ∈ db, x.version ≠ r.version →
        ((x.major = t.major ∧ x.minor = t.minor ∧ x.micro = t.micro - 1 ∧
            x.status = 'f') →
          ({ x with eol_date := r.date }) ∈ db') ∧
        (¬(x.major = t.major ∧ x.minor = t.minor ∧ x.micro = t.micro - 1 ∧
            x.status = 'f') →
          x ∈ db'))
    ∧ (¬(t.kind = "final" ∧ 0 < t.micro ∧ r.is_active = true) →
      ∀ x ∈ db, x.version ≠ r.version → x ∈ db') := by
  unfold save at h
  rw [ht] at h
  simp only [Option.bind_eq_bind, Option.some_bind] at h
  cases hst : RELEASE_STATUS_REVERSE t.kind with
  | none => rw [hst] at h; simp at h
  | some st =>
    rw [hst] at h
    simp only [Option.some_bind, Option.some.injEq] at h
    constructor
    · intro hk x hx hne
      have hstf : st = 'f' := (reverse_status_final hst).mpr hk.1
      rw [if_pos ⟨hstf, hk.2.1, hk.2.2⟩] at h
      subst h
      have hxu : x ∈ upsert (savedRow r t st) db := mem_upsert_of_ne hx hne
      constructor
      · intro hcond
        have heq : eolUpdate (savedRow r t st).major (savedRow r t st).minor
            (savedRow r t st).micro (savedRow r t st).date x
            = { x with eol_date := r.date } := by
          unfold eolUpdate savedRow
          rw [if_pos hcond]
        rw [← heq]
        exact List.mem_map_of_mem _ hxu
      · intro hcond
        have heq : eolUpdate (savedRow r t st).major (savedRow r t st).minor
            (savedRow r t st).micro (savedRow r t st).date x = x := by
          unfold eolUpdate savedRow
          rw [if_neg hcond]
        exact heq ▸ List.mem_map_of_mem _ hxu
    · intro hk x hx hne
      split at h
      case isTrue hc =>
        exact absurd ⟨(reverse_status_final hst).mp hc.1, hc.2.1, hc.2.2⟩ hk
      case isFalse =>
        subst h
        exact mem_upsert_of_ne hx hne

/-- Witness for C3: saving the active final 1.5.1 over a table holding the
1.5 row end-of-lifes the 1.5 row to the new release's date. -/
theorem release_save_eol_cascade_witness :
    save rC3 [rEol] = some dbC3 ∧ ({ rEol with eol_date := some 0 }) ∈ dbC3 := by
  constructor
  · rfl
  · have h := (release_save_eol_cascade rC3 [rEol] dbC3
      { major := 1, minor := 5, micro := 1, kind := "final", iteration := 0 }
      (by rfl) (by rfl)).1
    have h2 := h ⟨rfl, by decide, rfl⟩ rEol (List.mem_cons_self _ _) (by decide)
    exact h2.1 (by decide)

/-- C7: whatever decomposition fields a release carried before, after a
successful `save` the stored row (the unique row with the saved version
string) carries exactly the decomposition parsed from the version string at
persistence time, with the status mapped through `RELEASE_STATUS_REVERSE`. -/
theorem save_recomputes_decomposition (r : Release) (db db' : List Release)
    (hnd : (db.map (fun x => x.version)).Nodup) (h : save r db = some db') :
    ∃ t, version_tuple r.version = some t ∧
      ∃ st, RELEASE_STATUS_REVERSE t.kind = some st ∧
        (∃ x ∈ db', x.version = r.version) ∧
        ∀ x ∈ db', x.version = r.version →
          x.major = t.major ∧ x.minor = t.minor ∧ x.micro = t.micro ∧
            x.status = st ∧ x.iteration = t.iteration := by
  unfold save at h
  cases ht : version_tuple r.version with
  | none => rw [ht] at h; simp at h
  | some t =>
    rw [ht] at h
    simp only [Option.bind_eq_bind, Option.some_bind] at h
    cases hst : RELEASE_STATUS_REVERSE t.kind with
    | none => rw [hst] at h; simp at h
    | some st =>
      rw [hst] at h
      simp only [Option.some_bind, Option.some.injEq] at h
      refine ⟨t, rfl, st, hst, ?_⟩
      split at h
      case isTrue hc =>
        subst h
        constructor
        · refine ⟨eolUpdate (savedRow r t st).major (savedRow r t st).minor
            (savedRow r t st).micro (savedRow r t st).date (savedRow r t st),
            List.mem_map_of_mem _ (mem_upsert_self _ db), ?_⟩
          exact (eolUpdate_fields _ _ _ _ _).1
        · intro x hx hv
          obtain ⟨y, hy, rfl⟩ := List.mem_map.mp hx
          have hyv : y.version = r.version := by
            rw [← (eolUpdate_fields (savedRow r t st).major (savedRow r t st).minor
              (savedRow r t st).micro (savedRow r t st).date y).1]
            exact hv
          have hyr : y = savedRow r t st := upsert_version_unique hnd hy hyv
          subst hyr
          obtain ⟨f1, f2, f3, f4, f5, f6⟩ := eolUpdate_fields (savedRow r t st).major
            (savedRow r t st).minor (savedRow r t st).micro (savedRow r t st).date
            (savedRow r t st)
          exact ⟨f2.trans rfl, f3.trans rfl, f4.trans rfl, f5.trans rfl, f6.trans rfl⟩
      case isFalse =>
        subst h
        constructor
        · exact ⟨savedRow r t st, mem_upsert_self _ db, rfl⟩
        · intro x hx hv
          have hxr : x = savedRow r t st := upsert_version_unique hnd hx hv
          subst hxr
          exact ⟨rfl, rfl, rfl, rfl, rfl⟩

/-- Witness for C7: the table written by saving 1.5.1 holds exactly the
decomposition `(1, 5, 1, 'f', 0)` parsed from the version string. -/
theorem save_recomputes_decomposition_witness :
    ∃ t, version_tuple rC3.version = some t ∧
      ∃ st, RELEASE_STATUS_REVERSE t.kind = some st ∧
        (∃ x ∈ dbC3, x.version = rC3.version) ∧
        ∀ x ∈ dbC3, x.version = rC3.version →
          x.major = t.major ∧ x.minor = t.minor ∧ x.micro = t.micro ∧
            x.status = st ∧ x.iteration = t.iteration :=
  save_recomputes_decomposition rC3 [rEol] dbC3 (by decide) (by rfl)

/-! ## Lemmas: Python set construction -/

theorem mem_dedupAcc_sub {collapse : α → α → Bool} {seen l : List α} {x : α}
    (h : x ∈ dedupAcc collapse seen l) : x ∈ l := by
  induction l generalizing seen with
  | nil => simp [dedupAcc] at h
  | cons y ys ih =>
    rw [dedupAcc] at h
    split at h
    · exact List.mem_cons_of_mem y (ih h)
    · rcases List.mem_cons.mp h with rfl | h
      · exact List.mem_cons_self _ _
      · exact List.mem_cons_of_mem y (ih h)

theorem mem_dedupAcc_no_partner {collapse : α → α → Bool} {seen l : List α}
    {x : α} (h : x ∈ dedupAcc collapse seen l) :
    ∀ y ∈ seen, collapse y x = false := by
  induction l generalizing seen with
  | nil => simp [dedupAcc] at h
  | cons z zs ih =>
    rw [dedupAcc] at h
    split at h
    · exact ih h
    case isFalse hany =>
      rcases List.mem_cons.mp h with rfl | h
      · intro y hy
        rcases hb : collapse y x with - | -
        · rfl
        · exact absurd (List.any_eq_true.mpr ⟨y, hy, hb⟩) hany
      · intro y hy
        exact ih h y (List.mem_cons_of_mem z hy)

theorem pairwise_dedupAcc (collapse : α → α → Bool) (seen l : List α) :
    (dedupAcc collapse seen l).Pairwise (fun a b => collapse a b = false) := by
  induction l generalizing seen with
  | nil => simp [dedupAcc]
  | cons y ys ih =>
    rw [dedupAcc]
    split
    · exact ih seen
    · refine List.Pairwise.cons ?_ (ih (y :: seen))
      intro b hb
      exact mem_dedupAcc_no_partner hb y (List.mem_cons_self _ _)

theorem mem_dedupAcc_iff {seen l : List Release} {x : Release}
    (hc : ∀ a b : Release, (a ∈ seen ∨ a ∈ l) → (b ∈ seen ∨ b ∈ l) →
      a.version = b.version → a = b) :
    x ∈ dedupAcc setCollapse seen l ↔
      (x ∈ l ∧ ∀ y ∈ seen, setCollapse y x = false) := by
  induction l generalizing seen with
  | nil => simp [dedupAcc]
  | cons z zs ih =>
    have hc' : ∀ a b : Release, (a ∈ seen ∨ a ∈ zs) → (b ∈ seen ∨ b ∈ zs) →
        a.version = b.version → a = b := by
      intro a b ha hb
      exact hc a b (ha.imp id (List.mem_cons_of_mem z))
        (hb.imp id (List.mem_cons_of_mem z))
    have hc'' : ∀ a b : Release, (a ∈ z :: seen ∨ a ∈ zs) →
        (b ∈ z :: seen ∨ b ∈ zs) → a.version = b.version → a = b := by
      intro a b ha hb
      apply hc a b
      · rcases ha with ha | ha
        · rcases List.mem_cons.mp ha with rfl | ha
          · exact Or.inr (List.mem_cons_self _ _)
          · exact Or.inl ha
        · exact Or.inr (List.mem_cons_of_mem z ha)
      · rcases hb with hb | hb
        · rcases List.mem_cons.mp hb with rfl | hb
          · exact Or.inr (List.mem_cons_self _ _)
          · exact Or.inl hb
        · exact Or.inr (List.mem_cons_of_mem z hb)
    rw [dedupAcc]
    split
    case isTrue hany =>
      rw [ih hc']
      constructor
      · rintro ⟨hx, hnp⟩
        exact ⟨List.mem_cons_of_mem z hx, hnp⟩
      · rintro ⟨hx, hnp⟩
        rcases List.mem_cons.mp hx with rfl | hx
        · exfalso
          obtain ⟨y, hy, hcol⟩ := List.any_eq_true.mp hany
          exact absurd hcol (by simp [hnp y hy])
        · exact ⟨hx, hnp⟩
    case isFalse hany =>
      constructor
      · intro hx
        rcases List.mem_cons.mp hx with rfl | hx
        · refine ⟨List.mem_cons_self _ _, ?_⟩
          intro y hy
          rcases hb : setCollapse y x with - | -
          · rfl
          · exact absurd (List.any_eq_true.mpr ⟨y, hy, hb⟩) hany
        · obtain ⟨hxz, hnp⟩ := (ih hc'').mp hx
          exact ⟨List.mem_cons_of_mem z hxz,
            fun y hy => hnp y (List.mem_cons_of_mem z hy)⟩
      · rintro ⟨hx, hnp⟩
        rcases List.mem_cons.mp hx with rfl | hx
        · exact List.mem_cons_self _ _
        · rcases hcol : setCollapse z x with - | -
          · refine List.mem_cons_of_mem z ((ih hc'').mpr ⟨hx, ?_⟩)
            intro y hy
            rcases List.mem_cons.mp hy with rfl | hy
            · exact hcol
            · exact hnp y hy
          · have hv : z.version = x.version := by
              unfold setCollapse pyEq at hcol
              simp at hcol
              exact hcol.2
            have : z = x := hc z x (Or.inr (List.mem_cons_self _ _))
              (Or.inr (List.mem_cons_of_mem z hx)) hv
            subst this
            exact List.mem_cons_self _ _

theorem lex3_irrefl (u : Nat × Nat × Nat) : lex3 u u = false := by
  rw [lex3_false_iff]
  omega

theorem versionDescBefore_H1 : ∀ a b : Release, versionDescBefore a b = true →
    versionDescBefore b a = false := by
  intro a b h
  simp only [versionDescBefore, decide_eq_true_eq] at h
  simp only [versionDescBefore, decide_eq_false_iff_not]
  exact lt_asymm h

theorem versionDescBefore_H2 : ∀ x y z : Release, versionDescBefore x y = true →
    versionDescBefore z y = false → versionDescBefore z x = false := by
  intro x y z h1 h2
  simp only [versionDescBefore, decide_eq_true_eq] at h1
  simp only [versionDescBefore, decide_eq_false_iff_not] at h2 ⊢
  intro hc
  exact absurd (lt_of_le_of_lt (le_of_not_lt h2) h1) (lt_asymm hc)

/-- C1 is false as stated: the 5.2 final build and the 5.2 release candidate
share the `(major, minor, micro)` triple, hence the hash, yet `Model.__eq__`
(primary-key equality on the `version` string) distinguishes them, so
`affected_releases` keeps both as two elements instead of collapsing them
into one. -/
theorem affected_releases_no_collapse_counterexample :
    pyHashKey r52 = pyHashKey r52rc1 ∧
    tripleKey r52 = tripleKey r52rc1 ∧
    pyEq r52 r52rc1 = false ∧
    (affected_releases [issueC1]).length = 2 ∧
    ¬ (affected_releases [issueC1]).length = 1 := by
  decide

/-- C1 (amended): `Release.__hash__` and the strict order `__lt__` are
determined by `(major, minor, micro)` alone, but equality is the inherited
primary-key equality on the `version` string; consequently, for releases
drawn from a table where the version string determines the row,
`affected_releases` deduplicates exactly by version string — it contains an
affected release iff some attached issue references it, lists each version at
most once, and is sorted descending by the `(major, minor, micro)` order key;
a pre-release and a final build of the same triple remain distinct
elements. -/
theorem affected_releases_dedup_amended (issues : List SecurityIssueRec)
    (hc : ∀ a b : Release, a ∈ issues.flatMap (fun i => i.releases) →
      b ∈ issues.flatMap (fun i => i.releases) → a.version = b.version → a = b) :
    (∀ r, r ∈ affected_releases issues ↔ ∃ i ∈ issues, r ∈ i.releases)
    ∧ (affected_releases issues).Pairwise (fun a b => a.version ≠ b.version)
    ∧ (affected_releases issues).Pairwise
        (fun a b => lex3 (tripleKey a) (tripleKey b) = false) := by
  have hperm := perm_insSort candBefore
    (dedupAcc setCollapse [] (issues.flatMap (fun i => i.releases)))
  refine ⟨?_, ?_, pairwise_insSort candBefore_H1 candBefore_H2 _⟩
  · intro r
    rw [affected_releases, mem_insSort]
    rw [mem_dedupAcc_iff (by simpa using hc)]
    simp [List.mem_flatMap]
  · have hpw := pairwise_dedupAcc setCollapse []
      (issues.flatMap (fun i => i.releases))
    have hsub : ∀ x ∈ dedupAcc setCollapse []
        (issues.flatMap (fun i => i.releases)),
        x ∈ issues.flatMap (fun i => i.releases) :=
      fun x hx => mem_dedupAcc_sub hx
    have hpw' : (dedupAcc setCollapse []
        (issues.flatMap (fun i => i.releases))).Pairwise
        (fun a b => a.version ≠ b.version) := by
      refine List.Pairwise.imp_of_mem ?_ hpw
      intro a b ha hb hcol hv
      have hab : a = b := hc a b (hsub a ha) (hsub b hb) hv
      subst hab
      have : setCollapse a a = true := by
        unfold setCollapse pyEq
        simp
      rw [this] at hcol
      exact Bool.true_eq_false.mp hcol
    rw [affected_releases]
    exact (hperm.pairwise_iff (fun hab => Ne.symm hab)).mpr hpw'

/-- Witness for the amended C1 at the concrete checklist holding the 5.2
final and 5.2rc1 releases. -/
theorem affected_releases_dedup_amended_witness :
    (∀ r, r ∈ affected_releases [issueC1] ↔ ∃ i ∈ [issueC1], r ∈ i.releases)
    ∧ (affected_releases [issueC1]).Pairwise (fun a b => a.version ≠ b.version)
    ∧ (affected_releases [issueC1]).Pairwise
        (fun a b => lex3 (tripleKey a) (tripleKey b) = false) :=
  affected_releases_dedup_amended [issueC1] (by
    intro a b ha hb hv
    simp [issueC1] at ha hb
    rcases ha with rfl | rfl <;> rcases hb with rfl | rfl <;>
      first
        | rfl
        | (exfalso; revert hv; decide))

/-- C10: `SecurityRelease.latest_release` is partial — it is empty (the
Python code raises `IndexError`) exactly when every affected release is a
pre-release (in particular when there are none), and otherwise returns a
final affected release that is greatest, in the descending
`(major, minor, micro)` order of `affected_releases`, among all final
affected releases. -/
theorem latest_release_partiality (issues : List SecurityIssueRec) :
    (latest_release issues = none ↔
      ∀ r ∈ affected_releases issues, is_pre_release r = true)
    ∧ ∀ r, latest_release issues = some r →
        r ∈ affected_releases issues ∧ is_pre_release r = false ∧
        ∀ s ∈ affected_releases issues, is_pre_release s = false →
          lex3 (tripleKey r) (tripleKey s) = false := by
  constructor
  · rw [latest_release, List.head?_eq_none_iff, List.filter_eq_nil_iff]
    constructor
    · intro h r hr
      have := h r hr
      simpa using this
    · intro h r hr
      simpa using h r hr
  · intro r hr
    rw [latest_release] at hr
    obtain ⟨t, ht⟩ := List.head?_eq_some_iff.mp hr
    have hmemf : r ∈ (affected_releases issues).filter
        (fun x => !(is_pre_release x)) := by
      rw [ht]
      exact List.mem_cons_self _ _
    rw [List.mem_filter] at hmemf
    obtain ⟨hmem, hpred⟩ := hmemf
    refine ⟨hmem, by simpa using hpred, ?_⟩
    intro s hs hsf
    have hsfil : s ∈ (affected_releases issues).filter
        (fun x => !(is_pre_release x)) := by
      rw [List.mem_filter]
      exact ⟨hs, by simp [hsf]⟩
    rw [ht] at hsfil
    rcases List.mem_cons.mp hsfil with rfl | hst
    · exact lex3_irrefl _
    · have hpw : ((affected_releases issues).filter
          (fun x => !(is_pre_release x))).Pairwise
          (fun a b => lex3 (tripleKey a) (tripleKey b) = false) :=
        (pairwise_insSort candBefore_H1 candBefore_H2 _).filter _
      rw [ht, List.pairwise_cons] at hpw
      exact hpw.1 s hst

/-- Witness for C10: a checklist whose only affected release is the 5.2
release candidate has no latest release (the code would raise), while the
checklist also holding the 5.2 final build returns it. -/
theorem latest_release_partiality_witness :
    latest_release [issuePre] = none ∧ latest_release [issueC1] = some r52 :=
  ⟨(latest_release_partiality [issuePre]).1.mpr (by decide), by decide⟩

/-- C8: for an issue attached to a security release, `cve_data` is a record
with exactly the top-level keys `title, metrics, descriptions, affected,
references, credits, timeline, datePublic` in that order; `datePublic` is the
zero-padded `MM/DD/YYYY` rendering of the checklist timestamp; and
`affected[0].versions` lists, for each final affected release in descending
`version` order, an "affected" entry from `{major}.{minor}.0` below the fixed
version followed by an "unaffected" entry from the fixed version below
`{major}.{minor}.*`, each with `versionType` "semver". -/
theorem cve_data_spec (i : SecurityIssueRec) (rel : SecurityReleaseRec) :
    jTopKeys (cve_data i rel) =
      some ["title", "metrics", "descriptions", "affected", "references",
            "credits", "timeline", "datePublic"]
    ∧ jGet (cve_data i rel) "datePublic" =
        some (J.s (pad2 rel.when.month ++ "/" ++ pad2 rel.when.day ++ "/"
          ++ pad4 rel.when.year))
    ∧ ∃ finals : List Release,
        (∀ r, r ∈ finals ↔ r ∈ i.releases ∧ r.status = 'f')
        ∧ finals.Pairwise (fun a b => ¬ a.version < b.version)
        ∧ jGet (cve_data i rel) "affected" =
            some (J.arr
              [J.obj
                [("packageName", J.s "django"),
                 ("collectionURL", J.s "https://github.com/django/django/"),
                 ("defaultStatus", J.s "affected"),
                 ("versions", J.arr (finals.flatMap (fun r =>
                   [J.obj [("status", J.s "affected"),
                           ("version", J.s (feature_version r ++ ".0")),
                           ("lessThan", J.s r.version),
                           ("versionType", J.s "semver")],
                    J.obj [("status", J.s "unaffected"),
                           ("version", J.s r.version),
                           ("lessThan", J.s (feature_version r ++ ".*")),
                           ("versionType", J.s "semver")]])))]]) := by
  refine ⟨rfl, rfl, finalsByVersionDesc i.releases, ?_, ?_, rfl⟩
  · intro r
    rw [finalsByVersionDesc, mem_insSort, List.mem_filter]
    simp
  · have hpw := pairwise_insSort versionDescBefore_H1 versionDescBefore_H2
      (i.releases.filter (fun r => r.status == 'f'))
    refine List.Pairwise.imp ?_ hpw
    intro a b h
    simpa only [versionDescBefore, decide_eq_false_iff_not] using h

/-- Witness for C8 at the concrete fixture issue and checklist timestamp. -/
theorem cve_data_spec_witness :
    jTopKeys (cve_data issueC1 relC8) =
      some ["title", "metrics", "descriptions", "affected", "references",
            "credits", "timeline", "datePublic"]
    ∧ jGet (cve_data issueC1 relC8) "datePublic" =
        some (J.s (pad2 relC8.when.month ++ "/" ++ pad2 relC8.when.day ++ "/"
          ++ pad4 relC8.when.year))
    ∧ ∃ finals : List Release,
        (∀ r, r ∈ finals ↔ r ∈ issueC1.releases ∧ r.status = 'f')
        ∧ finals.Pairwise (fun a b => ¬ a.version < b.version)
        ∧ jGet (cve_data issueC1 relC8) "affected" =
            some (J.arr
              [J.obj
                [("packageName", J.s "django"),
                 ("collectionURL", J.s "https://github.com/django/django/"),
                 ("defaultStatus", J.s "affected"),
                 ("versions", J.arr (finals.flatMap (fun r =>
                   [J.obj [("status", J.s "affected"),
                           ("version", J.s (feature_version r ++ ".0")),
                           ("lessThan", J.s r.version),
                           ("versionType", J.s "semver")],
                    J.obj [("status", J.s "unaffected"),
                           ("version", J.s r.version),
                           ("lessThan", J.s (feature_version r ++ ".*")),
                           ("versionType", J.s "semver")]])))]]) :=
  cve_data_spec issueC1 relC8

/-! ## Lemmas: decimal rendering and the tokenizer (toward C2) -/

theorem digitChr_props {m : Nat} (hm : m < 10) :
    (digitChr m).isDigit = true ∧ (digitChr m).isAlpha = false ∧
    digitChr m ≠ '-' ∧ digitChr m ≠ '_' ∧ digitVal (digitChr m) = m := by
  interval_cases m <;> decide

theorem repDigitsF_irrel : ∀ f1 f2 n, n < f1 → n < f2 →
    repDigitsF f1 n = repDigitsF f2 n := by
  intro f1
  induction f1 with
  | zero => intro f2 n h; omega
  | succ f ih =>
    intro f2 n h1 h2
    cases f2 with
    | zero => omega
    | succ g =>
      rw [repDigitsF, repDigitsF]
      split
      · rfl
      case isFalse h10 =>
        have hlt : n / 10 < n := Nat.div_lt_self (by omega) (by omega)
        rw [ih g (n / 10) (by omega) (by omega)]

theorem repDigits_unfold (n : Nat) :
    repDigits n = if n < 10 then [digitChr n]
      else repDigits (n / 10) ++ [digitChr (n % 10)] := by
  rw [repDigits, repDigitsF]
  split
  · rfl
  case isFalse h10 =>
    have hlt : n / 10 < n := Nat.div_lt_self (by omega) (by omega)
    rw [repDigits, repDigitsF_irrel n (n / 10 + 1) (n / 10) (by omega) (by omega)]

theorem repDigits_facts (n : Nat) :
    repDigits n ≠ [] ∧ ∀ c ∈ repDigits n, c.isDigit = true ∧
      c.isAlpha = false ∧ c ≠ '-' ∧ c ≠ '_' := by
  induction n using Nat.strong_induction_on with
  | _ n ih =>
    rw [repDigits_unfold]
    split
    case isTrue h10 =>
      refine ⟨by simp, ?_⟩
      intro c hc
      rw [List.mem_singleton] at hc
      subst hc
      obtain ⟨p1, p2, p3, p4, -⟩ := digitChr_props h10
      exact ⟨p1, p2, p3, p4⟩
    case isFalse h10 =>
      have hlt : n / 10 < n := Nat.div_lt_self (by omega) (by omega)
      obtain ⟨hne, hmem⟩ := ih (n / 10) hlt
      refine ⟨by simp [hne], ?_⟩
      intro c hc
      rw [List.mem_append] at hc
      rcases hc with hc | hc
      · exact hmem c hc
      · rw [List.mem_singleton] at hc
        subst hc
        obtain ⟨p1, p2, p3, p4, -⟩ := digitChr_props (Nat.mod_lt n (by omega))
        exact ⟨p1, p2, p3, p4⟩

theorem foldl_repDigits (n : Nat) : ∀ a : Nat,
    (repDigits n).foldl (fun acc c => 10 * acc + digitVal c) a
      = a * 10 ^ (repDigits n).length + n := by
  induction n using Nat.strong_induction_on with
  | _ n ih =>
    intro a
    rw [repDigits_unfold]
    split
    case isTrue h10 =>
      simp [List.foldl, (digitChr_props h10).2.2.2.2]
      ring
    case isFalse h10 =>
      have hlt : n / 10 < n := Nat.div_lt_self (by omega) (by omega)
      rw [List.foldl_append, ih (n / 10) hlt a]
      simp only [List.foldl, List.length_append, List.length_singleton]
      rw [(digitChr_props (Nat.mod_lt n (by omega))).2.2.2.2]
      calc 10 * (a * 10 ^ (repDigits (n / 10)).length + n / 10) + n % 10
          = a * 10 ^ ((repDigits (n / 10)).length + 1)
              + (10 * (n / 10) + n % 10) := by ring
        _ = a * 10 ^ ((repDigits (n / 10)).length + 1) + n := by
            rw [Nat.div_add_mod]

theorem valOfDigits_repDigits (n : Nat) : valOfDigits (repDigits n) = n := by
  rw [valOfDigits, foldl_repDigits n 0]
  simp

theorem takeWhile_dropWhile_run {p : Char → Bool} {l r : List Char}
    (hl : ∀ c ∈ l, p c = true)
    (hr : ∀ c, r.head? = some c → p c = false) :
    (l ++ r).takeWhile p = l ∧ (l ++ r).dropWhile p = r := by
  induction l with
  | nil =>
    simp only [List.nil_append]
    cases r with
    | nil => simp
    | cons c cs =>
      have := hr c rfl
      rw [List.takeWhile_cons, List.dropWhile_cons, this]
      simp
  | cons a as ih =>
    have ha := hl a (List.mem_cons_self _ _)
    obtain ⟨iht, ihd⟩ := ih (fun c hc => hl c (List.mem_cons_of_mem a hc))
    rw [List.cons_append, List.takeWhile_cons, List.dropWhile_cons, ha]
    simp only [if_true]
    exact ⟨by rw [iht], by rw [ihd]⟩

theorem dropWhile_length_le {α : Type} (p : α → Bool) (l : List α) :
    (l.dropWhile p).length ≤ l.length := by
  induction l with
  | nil => simp
  | cons c cs ih =>
    rw [List.dropWhile_cons]
    split
    · exact Nat.le_succ_of_le ih
    · simp

theorem length_dropWhile_cons_lt {α : Type} {p : α → Bool} {c : α}
    {cs : List α} (hp : p c = true) :
    (List.dropWhile p (c :: cs)).length < (c :: cs).length := by
  rw [List.dropWhile_cons, if_pos hp]
  exact Nat.lt_succ_of_le (dropWhile_length_le p cs)

theorem tokenizeF_irrel : ∀ f1 f2 (l : List Char), l.length ≤ f1 →
    l.length ≤ f2 → tokenizeF f1 l = tokenizeF f2 l := by
  intro f1
  induction f1 with
  | zero =>
    intro f2 l h1 h2
    have : l = [] := List.length_eq_zero.mp (Nat.le_zero.mp h1)
    subst this
    cases f2 <;> rfl
  | succ f ih =>
    intro f2 l h1 h2
    cases l with
    | nil => cases f2 <;> rfl
    | cons c cs =>
      cases f2 with
      | zero => simp at h2
      | succ g =>
        rw [tokenizeF, tokenizeF]
        simp only [List.length_cons] at h1 h2
        split
        case isTrue hd =>
          have hlen : (List.dropWhile Char.isDigit (c :: cs)).length
              < (c :: cs).length := length_dropWhile_cons_lt hd
          simp only [List.length_cons] at hlen
          rw [ih g _ (by omega) (by omega)]
        case isFalse hd =>
          split
          case isTrue ha =>
            have hlen : (List.dropWhile Char.isAlpha (c :: cs)).length
                < (c :: cs).length := length_dropWhile_cons_lt ha
            simp only [List.length_cons] at hlen
            rw [ih g _ (by omega) (by omega)]
          case isFalse ha =>
            rw [ih g cs (by omega) (by omega)]

theorem glvt_digit_run {l r : List Char} (hne : l ≠ [])
    (hl : ∀ c ∈ l, c.isDigit = true)
    (hr : ∀ c, r.head? = some c → c.isDigit = false) :
    get_loose_version_tuple (l ++ r)
      = VComp.num (valOfDigits l) :: get_loose_version_tuple r := by
  obtain ⟨c, cs, rfl⟩ := List.exists_cons_of_ne_nil hne
  obtain ⟨htake, hdrop⟩ := takeWhile_dropWhile_run hl hr
  rw [List.cons_append] at htake hdrop
  rw [get_loose_version_tuple, List.cons_append, List.length_cons, tokenizeF]
  rw [hl c (List.mem_cons_self _ _)]
  simp only [if_true]
  rw [htake, hdrop]
  rw [get_loose_version_tuple]
  rw [tokenizeF_irrel (cs ++ r).length r.length r (by simp) (by omega)]

theorem glvt_alpha_run {l r : List Char} (hne : l ≠ [])
    (hl : ∀ c ∈ l, c.isAlpha = true ∧ c.isDigit = false)
    (hr : ∀ c, r.head? = some c → c.isAlpha = false) :
    get_loose_version_tuple (l ++ r)
      = VComp.str l.asString :: get_loose_version_tuple r := by
  obtain ⟨c, cs, rfl⟩ := List.exists_cons_of_ne_nil hne
  obtain ⟨htake, hdrop⟩ := takeWhile_dropWhile_run
    (fun c hc => (hl c hc).1) hr
  rw [List.cons_append] at htake hdrop
  rw [get_loose_version_tuple, List.cons_append, List.length_cons, tokenizeF]
  rw [(hl c (List.mem_cons_self _ _)).2, (hl c (List.mem_cons_self _ _)).1]
  simp only [Bool.false_eq_true, if_false, if_true]
  rw [htake, hdrop]
  rw [get_loose_version_tuple]
  rw [tokenizeF_irrel (cs ++ r).length r.length r (by simp) (by omega)]

theorem glvt_dot (r : List Char) :
    get_loose_version_tuple ('.' :: r) = get_loose_version_tuple r := by
  rw [get_loose_version_tuple, List.length_cons, tokenizeF]
  have h1 : ('.' : Char).isDigit = false := by decide
  have h2 : ('.' : Char).isAlpha = false := by decide
  rw [h1, h2]
  simp only [Bool.false_eq_true, if_false]
  rw [get_loose_version_tuple]

theorem glvt_nil : get_loose_version_tuple [] = [] := rfl

theorem stripSeps_append (l r : List Char) :
    stripSeps (l ++ r) = stripSeps l ++ stripSeps r := by
  unfold stripSeps
  rw [List.filter_append]

theorem stripSeps_id {l : List Char} (h : ∀ c ∈ l, c ≠ '-' ∧ c ≠ '_') :
    stripSeps l = l := by
  unfold stripSeps
  rw [List.filter_eq_self]
  intro c hc
  obtain ⟨h1, h2⟩ := h c hc
  simp [h1, h2]

theorem normalize_shape2 (a b : Nat) :
    normalizeComps [VComp.num a, VComp.num b]
      = some [VComp.num a, VComp.num b, VComp.num 0, VComp.str "final",
              VComp.num 0] := rfl

theorem normalize_shape3 (a b c : Nat) :
    normalizeComps [VComp.num a, VComp.num b, VComp.num c]
      = some [VComp.num a, VComp.num b, VComp.num c, VComp.str "final",
              VComp.num 0] := rfl

theorem normalize_shape4 (a b d : Nat) (s k : String)
    (hres : resolveKind (VComp.str s) = some k) :
    normalizeComps [VComp.num a, VComp.num b, VComp.str s, VComp.num d]
      = some [VComp.num a, VComp.num b, VComp.num 0, VComp.str k,
              VComp.num d] := by
  unfold normalizeComps
  simp [VComp.isInt, hres]

theorem normalize_shape5 (a b c d : Nat) (s k : String)
    (hres : resolveKind (VComp.str s) = some k) :
    normalizeComps [VComp.num a, VComp.num b, VComp.num c, VComp.str s,
        VComp.num d]
      = some [VComp.num a, VComp.num b, VComp.num c, VComp.str k,
              VComp.num d] := by
  unfold normalizeComps
  simp [VComp.isInt, hres]

theorem resolveKind_mem {v : VComp} {k : String}
    (h : resolveKind v = some k) : k ∈ KINDS := by
  cases v with
  | num n => simp [resolveKind] at h
  | str s =>
    have h' : (if s ∈ KINDS then some s else expandKind s) = some k := h
    split_ifs at h' with hs
    · injection h' with h'
      subst h'
      assumption
    · unfold expandKind at h'
      split_ifs at h' <;> (injection h' with h'; subst h'; decide)

theorem getElem?_append_cons (l r : List VComp) (y : VComp) :
    (l ++ y :: r)[l.length]? = some y := by
  induction l with
  | nil => simp
  | cons a as ih => simpa using ih

theorem normalizeComps_kind_mem {A L : List VComp}
    (h : normalizeComps A = some L) :
    ∃ k ∈ KINDS, L[3]? = some (VComp.str k) := by
  unfold normalizeComps at h
  simp only [Option.bind_eq_bind] at h
  generalize hL0 : (if A.length = 2 then A ++ [VComp.num 0] else A) = L0 at h
  cases h2 : L0[2]? with
  | none => rw [h2] at h; simp at h
  | some c2 =>
    rw [h2] at h
    simp only [Option.some_bind] at h
    generalize hL1 : (if c2.isInt then L0
      else L0.take 2 ++ VComp.num 0 :: L0.drop 2) = L1 at h
    generalize hL2 : (if L1.length = 3 then L1 ++ [VComp.str "final"] else L1)
      = L2 at h
    cases h3 : L2[3]? with
    | none => rw [h3] at h; simp at h
    | some c3 =>
      rw [h3] at h
      simp only [Option.some_bind] at h
      cases hk : resolveKind c3 with
      | none => rw [hk] at h; simp at h
      | some k =>
        rw [hk] at h
        simp only [Option.some_bind, Option.some.injEq] at h
        refine ⟨k, resolveKind_mem hk, ?_⟩
        subst h
        have hlen : 4 ≤ L2.length := by
          by_contra hcon
          have : L2[3]? = none := by
            rw [List.getElem?_eq_none]
            omega
          rw [this] at h3
          exact Option.noConfusion h3
        have htk : (L2.take 3).length = 3 := by
          rw [List.length_take]
          omega
        have hmid : (L2.take 3 ++ VComp.str k :: L2.drop 4)[3]?
            = some (VComp.str k) := by
          have hg := getElem?_append_cons (L2.take 3) (L2.drop 4) (VComp.str k)
          rw [htk] at hg
          exact hg
        split
        case isTrue hlen4 =>
          rw [List.getElem?_append_left, hmid]
          rw [hlen4]
          omega
        case isFalse hlen4 =>
          exact hmid

theorem version_tuple_kind_mem {s : String} {t : VersionTuple}
    (h : version_tuple s = some t) : t.kind ∈ KINDS := by
  unfold version_tuple at h
  split at h
  next ma mi mc k it heq =>
    injection h with h
    subst h
    obtain ⟨k', hk', hidx⟩ := normalizeComps_kind_mem heq
    simp at hidx
    subst hidx
    exact hk'
  next => exact absurd h (by simp)

theorem str_data_append (a b : String) : (a ++ b).data = a.data ++ b.data := rfl

theorem natStr_data (n : Nat) : (natStr n).data = repDigits n := rfl

theorem dot_data : (".").data = ['.'] := rfl

theorem asString_data (l : List Char) : (List.asString l).data = l := rfl

theorem stripSeps_repDigits (n : Nat) : stripSeps (repDigits n) = repDigits n :=
  stripSeps_id (fun c hc =>
    ⟨((repDigits_facts n).2 c hc).2.2.1, ((repDigits_facts n).2 c hc).2.2.2⟩)

theorem stripSeps_cons {c : Char} (r : List Char) (h1 : c ≠ '-') (h2 : c ≠ '_') :
    stripSeps (c :: r) = c :: stripSeps r := by
  unfold stripSeps
  rw [List.filter_cons_of_pos]
  simp [h1, h2]

theorem headFails_of_all {P : Char → Bool} {l : List Char} (r : List Char)
    (hne : l ≠ []) (hall : ∀ c ∈ l, P c = false) :
    ∀ c, (l ++ r).head? = some c → P c = false := by
  obtain ⟨a, as, rfl⟩ := List.exists_cons_of_ne_nil hne
  intro c hc
  rw [List.cons_append, List.head?_cons, Option.some.injEq] at hc
  subst hc
  exact hall a (List.mem_cons_self _ _)

theorem glvt_main2 (ma mi : Nat) (r : List Char)
    (hr : ∀ c, r.head? = some c → c.isDigit = false) :
    get_loose_version_tuple (repDigits ma ++ '.' :: (repDigits mi ++ r))
      = VComp.num ma :: VComp.num mi :: get_loose_version_tuple r := by
  rw [glvt_digit_run (repDigits_facts ma).1
    (fun c hc => ((repDigits_facts ma).2 c hc).1) ?hdot]
  case hdot =>
    intro c hc
    rw [List.head?_cons, Option.some.injEq] at hc
    subst hc
    decide
  rw [glvt_dot]
  rw [glvt_digit_run (repDigits_facts mi).1
    (fun c hc => ((repDigits_facts mi).2 c hc).1) hr]
  rw [valOfDigits_repDigits, valOfDigits_repDigits]

theorem stripSeps_main2 (ma mi : Nat) (r : List Char)
    (hr : stripSeps r = r) :
    stripSeps (repDigits ma ++ '.' :: (repDigits mi ++ r))
      = repDigits ma ++ '.' :: (repDigits mi ++ r) := by
  rw [stripSeps_append, stripSeps_repDigits,
    stripSeps_cons _ (by decide) (by decide), stripSeps_append,
    stripSeps_repDigits, hr]

theorem parse_main2 (ma mi : Nat) :
    version_tuple (natStr ma ++ "." ++ natStr mi)
      = some { major := ma, minor := mi, micro := 0, kind := "final",
               iteration := 0 } := by
  have hdata : (natStr ma ++ "." ++ natStr mi).data
      = repDigits ma ++ '.' :: (repDigits mi ++ []) := by
    simp [str_data_append, natStr_data, dot_data]
  have hcomps : version_comps (natStr ma ++ "." ++ natStr mi)
      = some [VComp.num ma, VComp.num mi, VComp.num 0, VComp.str "final",
              VComp.num 0] := by
    rw [version_comps, hdata, stripSeps_main2 ma mi [] rfl,
      glvt_main2 ma mi [] (by intro c hc; cases hc), glvt_nil,
      normalize_shape2]
  unfold version_tuple
  rw [hcomps]

theorem head?_mem {l : List Char} {c : Char} (h : l.head? = some c) : c ∈ l := by
  cases l with
  | nil => cases h
  | cons a as =>
    rw [List.head?_cons, Option.some.injEq] at h
    subst h
    exact List.mem_cons_self _ _

theorem glvt_digits_only (n : Nat) :
    get_loose_version_tuple (repDigits n) = [VComp.num n] := by
  have h := glvt_digit_run (r := []) (repDigits_facts n).1
    (fun c hc => ((repDigits_facts n).2 c hc).1) (by intro c hc; cases hc)
  rw [List.append_nil] at h
  rw [h, glvt_nil, valOfDigits_repDigits]

theorem parse_main3 (ma mi mc : Nat) :
    version_tuple (natStr ma ++ "." ++ natStr mi ++ "." ++ natStr mc)
      = some { major := ma, minor := mi, micro := mc, kind := "final",
               iteration := 0 } := by
  have hdata : (natStr ma ++ "." ++ natStr mi ++ "." ++ natStr mc).data
      = repDigits ma ++ '.' :: (repDigits mi ++ ('.' :: (repDigits mc ++ []))) := by
    simp [str_data_append, natStr_data, dot_data]
  have hcomps : version_comps (natStr ma ++ "." ++ natStr mi ++ "." ++ natStr mc)
      = some [VComp.num ma, VComp.num mi, VComp.num mc, VComp.str "final",
              VComp.num 0] := by
    rw [version_comps, hdata]
    rw [stripSeps_main2 ma mi _ (by
      rw [stripSeps_cons _ (by decide) (by decide), stripSeps_append,
        stripSeps_repDigits]
      rfl)]
    rw [glvt_main2 ma mi _ (by
      intro c hc
      rw [List.head?_cons, Option.some.injEq] at hc
      subst hc
      decide)]
    rw [glvt_dot, List.append_nil, glvt_digits_only, normalize_shape3]
  unfold version_tuple
  rw [hcomps]

theorem parse_pre0 (ma mi it : Nat) (suf : List Char) (k : String)
    (hsufne : suf ≠ [])
    (hsuf : ∀ c ∈ suf, c.isAlpha = true ∧ c.isDigit = false ∧ c ≠ '-' ∧ c ≠ '_')
    (hres : resolveKind (VComp.str suf.asString) = some k) :
    version_tuple (natStr ma ++ "." ++ natStr mi ++ suf.asString ++ natStr it)
      = some { major := ma, minor := mi, micro := 0, kind := k,
               iteration := it } := by
  have hdata : (natStr ma ++ "." ++ natStr mi ++ suf.asString ++ natStr it).data
      = repDigits ma ++ '.' :: (repDigits mi ++ (suf ++ repDigits it)) := by
    simp [str_data_append, natStr_data, dot_data, asString_data]
  have hcomps : version_comps
        (natStr ma ++ "." ++ natStr mi ++ suf.asString ++ natStr it)
      = some [VComp.num ma, VComp.num mi, VComp.num 0, VComp.str k,
              VComp.num it] := by
    rw [version_comps, hdata]
    rw [stripSeps_main2 ma mi _ (by
      rw [stripSeps_append, stripSeps_repDigits,
        stripSeps_id (fun c hc => ⟨(hsuf c hc).2.2.1, (hsuf c hc).2.2.2⟩)])]
    rw [glvt_main2 ma mi _
      (headFails_of_all _ hsufne (fun c hc => (hsuf c hc).2.1))]
    rw [glvt_alpha_run hsufne (fun c hc => ⟨(hsuf c hc).1, (hsuf c hc).2.1⟩)
      (fun c hc => ((repDigits_facts it).2 c (head?_mem hc)).2.1)]
    rw [glvt_digits_only, normalize_shape4 _ _ _ _ _ hres]
  unfold version_tuple
  rw [hcomps]

theorem parse_pre3 (ma mi mc it : Nat) (suf : List Char) (k : String)
    (hsufne : suf ≠ [])
    (hsuf : ∀ c ∈ suf, c.isAlpha = true ∧ c.isDigit = false ∧ c ≠ '-' ∧ c ≠ '_')
    (hres : resolveKind (VComp.str suf.asString) = some k) :
    version_tuple (natStr ma ++ "." ++ natStr mi ++ "." ++ natStr mc
        ++ suf.asString ++ natStr it)
      = some { major := ma, minor := mi, micro := mc, kind := k,
               iteration := it } := by
  have hdata : (natStr ma ++ "." ++ natStr mi ++ "." ++ natStr mc
        ++ suf.asString ++ natStr it).data
      = repDigits ma ++ '.' :: (repDigits mi
          ++ ('.' :: (repDigits mc ++ (suf ++ repDigits it)))) := by
    simp [str_data_append, natStr_data, dot_data, asString_data]
  have hcomps : version_comps (natStr ma ++ "." ++ natStr mi ++ "." ++ natStr mc
        ++ suf.asString ++ natStr it)
      = some [VComp.num ma, VComp.num mi, VComp.num mc, VComp.str k,
              VComp.num it] := by
    rw [version_comps, hdata]
    rw [stripSeps_main2 ma mi _ (by
      rw [stripSeps_cons _ (by decide) (by decide), stripSeps_append,
        stripSeps_repDigits, stripSeps_append,
        stripSeps_repDigits,
        stripSeps_id (fun c hc => ⟨(hsuf c hc).2.2.1, (hsuf c hc).2.2.2⟩)])]
    rw [glvt_main2 ma mi _ (by
      intro c hc
      rw [List.head?_cons, Option.some.injEq] at hc
      subst hc
      decide)]
    rw [glvt_dot]
    rw [glvt_digit_run (repDigits_facts mc).1
      (fun c hc => ((repDigits_facts mc).2 c hc).1)
      (headFails_of_all _ hsufne (fun c hc => (hsuf c hc).2.1))]
    rw [glvt_alpha_run hsufne (fun c hc => ⟨(hsuf c hc).1, (hsuf c hc).2.1⟩)
      (fun c hc => ((repDigits_facts it).2 c (head?_mem hc)).2.1)]
    rw [glvt_digits_only, valOfDigits_repDigits, normalize_shape5 _ _ _ _ _ _ hres]
  unfold version_tuple
  rw [hcomps]

/-- C2 (amended): for every version string accepted by `version_tuple` whose
parsed tuple does not carry a nonzero iteration on a final kind, formatting
the tuple with `get_version` succeeds and the resulting normalized string
parses back to the same 5-tuple (so parse-then-format round-trips to an
equivalent normalized string). The exception the counterexample forces — a
kind token written literally as `final` with an explicit nonzero iteration,
such as `5.2final7` — loses its iteration in formatting. -/
theorem version_roundtrip_amended (s : String) (t : VersionTuple)
    (h : version_tuple s = some t) (hfi : t.kind = "final" → t.iteration = 0) :
    ∃ s', get_version t = some s' ∧ version_tuple s' = some t := by
  have hkind := version_tuple_kind_mem h
  obtain ⟨ma, mi, mc, k, it⟩ := t
  simp only [KINDS, List.mem_cons, List.not_mem_nil, or_false] at hkind
  rcases hkind with rfl | rfl | rfl | rfl
  · refine ⟨get_main_version
      { major := ma, minor := mi, micro := mc, kind := "alpha", iteration := it }
        ++ "a" ++ natStr it, rfl, ?_⟩
    by_cases hmc : mc = 0
    · subst hmc
      exact parse_pre0 ma mi it ['a'] "alpha" (by decide) (by decide) rfl
    · rw [get_main_version, if_neg hmc]
      exact parse_pre3 ma mi mc it ['a'] "alpha" (by decide) (by decide) rfl
  · refine ⟨get_main_version
      { major := ma, minor := mi, micro := mc, kind := "beta", iteration := it }
        ++ "b" ++ natStr it, rfl, ?_⟩
    by_cases hmc : mc = 0
    · subst hmc
      exact parse_pre0 ma mi it ['b'] "beta" (by decide) (by decide) rfl
    · rw [get_main_version, if_neg hmc]
      exact parse_pre3 ma mi mc it ['b'] "beta" (by decide) (by decide) rfl
  · refine ⟨get_main_version
      { major := ma, minor := mi, micro := mc, kind := "rc", iteration := it }
        ++ "rc" ++ natStr it, rfl, ?_⟩
    by_cases hmc : mc = 0
    · subst hmc
      exact parse_pre0 ma mi it ['r', 'c'] "rc" (by decide) (by decide) rfl
    · rw [get_main_version, if_neg hmc]
      exact parse_pre3 ma mi mc it ['r', 'c'] "rc" (by decide) (by decide) rfl
  · have hit : it = 0 := hfi rfl
    subst hit
    refine ⟨get_main_version
      { major := ma, minor := mi, micro := mc, kind := "final", iteration := 0 },
      rfl, ?_⟩
    by_cases hmc : mc = 0
    · subst hmc
      exact parse_main2 ma mi
    · rw [get_main_version, if_neg hmc]
      exact parse_main3 ma mi mc

/-- C2 is false as stated: `5.2final7` is accepted by `version_tuple`
(kind token `final`, iteration 7), but formatting its tuple yields `5.2`,
which parses to iteration 0 — not an equivalent string. -/
theorem version_roundtrip_counterexample :
    version_tuple "5.2final7"
      = some { major := 5, minor := 2, micro := 0, kind := "final",
               iteration := 7 } ∧
    (version_tuple "5.2final7").bind get_version = some "5.2" ∧
    version_tuple "5.2"
      = some { major := 5, minor := 2, micro := 0, kind := "final",
               iteration := 0 } ∧
    ({ major := 5, minor := 2, micro := 0, kind := "final", iteration := 0 }
        : VersionTuple)
      ≠ { major := 5, minor := 2, micro := 0, kind := "final",
          iteration := 7 } := by
  exact ⟨rfl, rfl, rfl, by decide⟩

/-- Witness for the amended C2 at the two example strings of the claim:
`5.2a1` round-trips through `(5, 2, 0, alpha, 1)` and the final tuple
`(5, 2, 0, final, 0)` formats to a string parsing back to itself. -/
theorem version_roundtrip_amended_witness :
    version_tuple "5.2a1" = some ⟨5, 2, 0, "alpha", 1⟩ ∧
    (∃ s', get_version ⟨5, 2, 0, "alpha", 1⟩ = some s' ∧
      version_tuple s' = some ⟨5, 2, 0, "alpha", 1⟩) ∧
    (∃ s', get_version ⟨5, 2, 0, "final", 0⟩ = some s' ∧
      version_tuple s' = some ⟨5, 2, 0, "final", 0⟩) :=
  ⟨rfl,
   version_roundtrip_amended "5.2a1" _ rfl
     (fun hk => absurd hk (by decide)),
   version_roundtrip_amended "5.2" _ rfl (fun _ => rfl)⟩
